import Mathlib

/-!
Shallow embedding of the read-tracking and analytics-aggregation core of the
News_API backend, together with proofs of the specified properties.

Embedded pieces of the source:
* `src/backend/src/jobs/aggregation.fallback.ts` — `runAggregationNow` (full
  aggregation of all read logs, in-process fallback) and `processAggregation`
  (incremental aggregation of "yesterday" in GMT, used by the BullMQ worker).
* the article controller (`ArticleController.getById`) — read tracking with
  the in-memory `readRateLimit` Map, 10-second dedup window and opportunistic
  compaction above 10,000 entries.
* the server bootstrap — `checkRedis` probe (2 s timeout) and the one-time
  choice between the queue-backed scheduler and the in-process fallback.

Timestamps are modelled as milliseconds since the Unix epoch (`Nat`), matching
JavaScript `Date.getTime()` for the post-1970 instants this system handles.
The JavaScript day truncation
`new Date(Date.UTC(d.getUTCFullYear(), d.getUTCMonth(), d.getUTCDate()))`
maps a timestamp to the UTC midnight opening its calendar day, which for
nonnegative timestamps is exactly `(t / 86400000) * 86400000`.
-/

/-! ## Data model -/

abbrev ArticleId := String

/-- A row of the `ReadLog` table as read by the aggregation jobs
(`select { articleId, readAt }`). -/
structure ReadLog where
  articleId : ArticleId
  readAt : Nat
deriving DecidableEq, Repr

/-- Milliseconds in one UTC day. -/
def msPerDay : Nat := 86400000

/-- The `dateKey` computed in `runAggregationNow`: the UTC midnight that opens
the calendar day of `t` (the source stores it as the ISO string of that
midnight and parses it back into a `Date` for the upsert key). -/
def dateKey (t : Nat) : Nat := (t / msPerDay) * msPerDay

/-- The `DailyAnalytics` table: a keyed store from (articleId, day-midnight)
to `viewCount`.  `none` means no row for that key. -/
abbrev AggStore := ArticleId × Nat → Option Nat

def emptyStore : AggStore := fun _ => none

/-- `prisma.dailyAnalytics.upsert`: insert the row or overwrite its
`viewCount` with the supplied value. -/
def upsert (k : ArticleId × Nat) (v : Nat) (s : AggStore) : AggStore :=
  fun k2 => if k2 = k then some v else s k2

/-! ## Grouping (`runAggregationNow` lines 26–40)

The source builds a nested record `grouped[articleId][dateKey] = count` by a
single pass over the logs and then iterates `Object.entries`, which yields
articles in first-occurrence order and, per article, date keys in
first-occurrence order.  `insertKey` models insertion into a JS object's key
sequence. -/

def insertKey {α : Type} [DecidableEq α] (k : α) (ks : List α) : List α :=
  if k ∈ ks then ks else ks ++ [k]

/-- Articles in first-occurrence order (outer `Object.entries` order). -/
def articleOrder (logs : List ReadLog) : List ArticleId :=
  logs.foldl (fun ks l => insertKey l.articleId ks) []

/-- Date keys recorded for article `a`, in first-occurrence order (inner
`Object.entries` order). -/
def datesFor (logs : List ReadLog) (a : ArticleId) : List Nat :=
  (logs.filter (fun l => decide (l.articleId = a))).foldl
    (fun ks l => insertKey (dateKey l.readAt) ks) []

/-- Final value of `grouped[a][d]`: the number of logs for article `a` whose
`readAt` falls on day `d`. -/
def countFor (logs : List ReadLog) (a : ArticleId) (d : Nat) : Nat :=
  (logs.filter (fun l => decide (l.articleId = a ∧ dateKey l.readAt = d))).length

/-- The flattened upsert work list of the full aggregation, in the iteration
order of the nested `Object.entries` loops. -/
def groupedEntries (logs : List ReadLog) : List ((ArticleId × Nat) × Nat) :=
  (articleOrder logs).flatMap
    (fun a => (datesFor logs a).map (fun d => ((a, d), countFor logs a d)))

/-! ## The upsert loops -/

/-- The upsert loop of `runAggregationNow` when every upsert succeeds. -/
def applyUpserts : List ((ArticleId × Nat) × Nat) → AggStore → AggStore
  | [], s => s
  | e :: rest, s => applyUpserts rest (upsert e.1 e.2 s)

/-- The upsert loop under a failure model: `fails k = true` means the
`prisma.dailyAnalytics.upsert` for key `k` rejects.  The loop body is inside
the single run-level `try`, so the first rejection escapes the loop to the
`catch`, which only logs — entries after the failing one are never attempted,
writes before it remain. -/
def applyUpsertsF (fails : ArticleId × Nat → Bool) :
    List ((ArticleId × Nat) × Nat) → AggStore → AggStore
  | [], s => s
  | e :: rest, s => if fails e.1 then s else applyUpsertsF fails rest (upsert e.1 e.2 s)

/-- `runAggregationNow` (full aggregation, no failures): read all logs,
return early if there are none, otherwise group and upsert every
(article, day) count. -/
def runAggregationNow (logs : List ReadLog) (s : AggStore) : AggStore :=
  if logs.length = 0 then s else applyUpserts (groupedEntries logs) s

/-- `runAggregationNow` under the upsert failure model `fails`. -/
def runAggregationNowF (fails : ArticleId × Nat → Bool)
    (logs : List ReadLog) (s : AggStore) : AggStore :=
  if logs.length = 0 then s else applyUpsertsF fails (groupedEntries logs) s

/-! ## Incremental aggregation (`processAggregation`) -/

/-- The logs selected by `processAggregation`'s query:
`readAt >= yesterday && readAt < today` where `yesterday`/`today` are the UTC
midnights below `now`. -/
def dayLogsOf (nowT : Nat) (logs : List ReadLog) : List ReadLog :=
  logs.filter (fun l =>
    decide (dateKey nowT - msPerDay ≤ l.readAt ∧ l.readAt < dateKey nowT))

/-- The rows returned by the `groupBy articleId` query with `_count.id`, one
per article having a read yesterday, each upserted at key
(articleId, yesterday). -/
def procEntries (nowT : Nat) (logs : List ReadLog) :
    List ((ArticleId × Nat) × Nat) :=
  (articleOrder (dayLogsOf nowT logs)).map
    (fun a => ((a, dateKey nowT - msPerDay),
      ((dayLogsOf nowT logs).filter (fun l => decide (l.articleId = a))).length))

/-- `processAggregation`: aggregate yesterday's (GMT) read logs and upsert the
per-article counts at key (articleId, yesterday). -/
def processAggregation (nowT : Nat) (logs : List ReadLog) (s : AggStore) :
    AggStore :=
  applyUpserts (procEntries nowT logs) s

/-! ## Basic lemmas -/

theorem applyUpsertsF_false (entries : List ((ArticleId × Nat) × Nat)) :
    ∀ s : AggStore, applyUpsertsF (fun _ => false) entries s = applyUpserts entries s := by
  induction entries with
  | nil => intro s; rfl
  | cons e rest ih => intro s; simp [applyUpsertsF, applyUpserts, ih]

theorem mem_insertKey {α : Type} [DecidableEq α] (x k : α) (ks : List α) :
    x ∈ insertKey k ks ↔ x ∈ ks ∨ x = k := by
  by_cases h : k ∈ ks
  · simp only [insertKey, if_pos h]
    constructor
    · exact Or.inl
    · rintro (hx | rfl)
      · exact hx
      · exact h
  · simp [insertKey, if_neg h]

theorem mem_foldl_insertKey {α β : Type} [DecidableEq β] (g : α → β) :
    ∀ (l : List α) (acc : List β) (x : β),
      x ∈ l.foldl (fun ks a => insertKey (g a) ks) acc ↔ x ∈ acc ∨ ∃ a ∈ l, g a = x := by
  intro l
  induction l with
  | nil => intro acc x; simp
  | cons a l ih =>
    intro acc x
    rw [List.foldl_cons, ih, mem_insertKey]
    simp only [List.mem_cons]
    constructor
    · rintro ((h | rfl) | ⟨b, hb, rfl⟩)
      · exact Or.inl h
      · exact Or.inr ⟨a, Or.inl rfl, rfl⟩
      · exact Or.inr ⟨b, Or.inr hb, rfl⟩
    · rintro (h | ⟨b, (rfl | hb), rfl⟩)
      · exact Or.inl (Or.inl h)
      · exact Or.inl (Or.inr rfl)
      · exact Or.inr ⟨b, hb, rfl⟩

theorem mem_articleOrder (logs : List ReadLog) (a : ArticleId) :
    a ∈ articleOrder logs ↔ ∃ l ∈ logs, l.articleId = a := by
  rw [articleOrder, mem_foldl_insertKey]
  simp

theorem mem_datesFor (logs : List ReadLog) (a : ArticleId) (d : Nat) :
    d ∈ datesFor logs a ↔ ∃ l ∈ logs, l.articleId = a ∧ dateKey l.readAt = d := by
  rw [datesFor, mem_foldl_insertKey]
  simp only [List.not_mem_nil, false_or, List.mem_filter, decide_eq_true_eq]
  constructor
  · rintro ⟨l, ⟨hl, ha⟩, hd⟩
    exact ⟨l, hl, ha, hd⟩
  · rintro ⟨l, hl, ha, hd⟩
    exact ⟨l, ⟨hl, ha⟩, hd⟩

theorem mem_groupedKeys (logs : List ReadLog) (a : ArticleId) (d : Nat) :
    (a, d) ∈ (groupedEntries logs).map Prod.fst ↔
      ∃ l ∈ logs, l.articleId = a ∧ dateKey l.readAt = d := by
  simp only [groupedEntries, List.mem_map, List.mem_flatMap]
  constructor
  · rintro ⟨e, ⟨a2, ha2, d2, hd2, rfl⟩, hfst⟩
    have hfst2 : (a2, d2) = (a, d) := hfst
    injection hfst2 with h1 h2
    subst h1
    subst h2
    exact (mem_datesFor logs a2 d2).mp hd2
  · intro h
    refine ⟨((a, d), countFor logs a d), ⟨a, ?_, d, (mem_datesFor logs a d).mpr h, rfl⟩, rfl⟩
    rw [mem_articleOrder]
    obtain ⟨l, hl, ha, _⟩ := h
    exact ⟨l, hl, ha⟩

theorem groupedEntries_val (logs : List ReadLog) :
    ∀ e ∈ groupedEntries logs, e.2 = countFor logs e.1.1 e.1.2 := by
  intro e he
  simp only [groupedEntries, List.mem_flatMap, List.mem_map] at he
  obtain ⟨a, _, d, _, rfl⟩ := he
  rfl

theorem procEntries_val (nowT : Nat) (logs : List ReadLog) :
    ∀ e ∈ procEntries nowT logs,
      e.2 = ((dayLogsOf nowT logs).filter (fun l => decide (l.articleId = e.1.1))).length := by
  intro e he
  simp only [procEntries, List.mem_map] at he
  obtain ⟨a, _, rfl⟩ := he
  rfl

theorem applyUpserts_lookup (f : ArticleId × Nat → Nat) :
    ∀ (entries : List ((ArticleId × Nat) × Nat)) (s : AggStore) (key : ArticleId × Nat),
      (∀ e ∈ entries, e.2 = f e.1) →
      applyUpserts entries s key =
        if key ∈ entries.map Prod.fst then some (f key) else s key := by
  intro entries
  induction entries with
  | nil => intro s key _; simp [applyUpserts]
  | cons e rest ih =>
    intro s key hval
    have he : e.2 = f e.1 := hval e (List.mem_cons_self e rest)
    have hrest : ∀ e2 ∈ rest, e2.2 = f e2.1 := fun e2 h2 => hval e2 (List.mem_cons_of_mem e h2)
    rw [applyUpserts, ih (upsert e.1 e.2 s) key hrest]
    by_cases hmem : key ∈ rest.map Prod.fst
    · simp [hmem, List.mem_cons]
    · by_cases hk : key = e.1
      · subst hk
        simp [hmem, upsert, he]
      · simp [hmem, hk, upsert, Ne.symm hk]

theorem runAggregationNow_lookup (logs : List ReadLog) (s : AggStore) (key : ArticleId × Nat) :
    runAggregationNow logs s key =
      if key ∈ (groupedEntries logs).map Prod.fst
      then some (countFor logs key.1 key.2) else s key := by
  cases logs with
  | nil => simp [runAggregationNow, groupedEntries, articleOrder]
  | cons l rest =>
    rw [runAggregationNow, if_neg (by simp)]
    exact applyUpserts_lookup (fun k => countFor (l :: rest) k.1 k.2)
      (groupedEntries (l :: rest)) s key (groupedEntries_val (l :: rest))

theorem processAggregation_lookup (nowT : Nat) (logs : List ReadLog) (s : AggStore)
    (key : ArticleId × Nat) :
    processAggregation nowT logs s key =
      if key ∈ (procEntries nowT logs).map Prod.fst
      then some (((dayLogsOf nowT logs).filter (fun l => decide (l.articleId = key.1))).length)
      else s key := by
  unfold processAggregation
  exact applyUpserts_lookup
    (fun k => ((dayLogsOf nowT logs).filter (fun l => decide (l.articleId = k.1))).length)
    (procEntries nowT logs) s key (procEntries_val nowT logs)

theorem mem_procKeys (nowT : Nat) (logs : List ReadLog) (a : ArticleId) (d : Nat) :
    (a, d) ∈ (procEntries nowT logs).map Prod.fst ↔
      d = dateKey nowT - msPerDay ∧ ∃ l ∈ dayLogsOf nowT logs, l.articleId = a := by
  have hmap : (procEntries nowT logs).map Prod.fst
      = (articleOrder (dayLogsOf nowT logs)).map
          (fun a2 => (a2, dateKey nowT - msPerDay)) := by
    unfold procEntries
    rw [List.map_map]
    rfl
  rw [hmap, List.mem_map]
  constructor
  · rintro ⟨a2, ha2, heq⟩
    simp only [Prod.mk.injEq] at heq
    obtain ⟨h1, h2⟩ := heq
    subst h1
    exact ⟨h2.symm, (mem_articleOrder _ a2).mp ha2⟩
  · rintro ⟨hd2, hex⟩
    rw [hd2]
    refine ⟨a, ?_, ?_⟩
    · exact (mem_articleOrder _ a).mpr hex
    · rfl

/-! ## UTC day arithmetic -/

theorem dateKey_idem (t : Nat) : dateKey (dateKey t) = dateKey t := by
  unfold dateKey
  rw [Nat.mul_div_cancel (t / msPerDay) (show 0 < msPerDay by decide)]

theorem dateKey_add_day (t : Nat) :
    dateKey (dateKey t + msPerDay) = dateKey t + msPerDay := by
  unfold dateKey
  have h : t / msPerDay * msPerDay + msPerDay = (t / msPerDay + 1) * msPerDay := by
    ring
  rw [h, Nat.mul_div_cancel (t / msPerDay + 1) (show 0 < msPerDay by decide)]

theorem dateKey_eq_iff (d t : Nat) (hd : dateKey d = d) :
    dateKey t = d ↔ d ≤ t ∧ t < d + msPerDay := by
  unfold dateKey msPerDay at *
  constructor
  · intro h
    omega
  · rintro ⟨h1, h2⟩
    omega

/-! ## Claim C2: idempotence -/

/-- Claim C2 (confirmed): aggregation is idempotent for both scopes.  A second
full run (`runAggregationNow`) or a second incremental run
(`processAggregation`, same clock reading) over an unchanged `ReadLog` history
leaves the `DailyAnalytics` store exactly as the first run left it: each
(articleId, day) key is overwritten with the freshly recomputed count, never
incremented. -/
theorem aggregation_idempotent (logs : List ReadLog) (nowT : Nat) (s : AggStore) :
    runAggregationNow logs (runAggregationNow logs s) = runAggregationNow logs s ∧
    processAggregation nowT logs (processAggregation nowT logs s)
      = processAggregation nowT logs s := by
  constructor
  · funext key
    by_cases h : key ∈ (groupedEntries logs).map Prod.fst
    · simp only [runAggregationNow_lookup, if_pos h]
    · simp only [runAggregationNow_lookup, if_neg h]
  · funext key
    by_cases h : key ∈ (procEntries nowT logs).map Prod.fst
    · simp only [processAggregation_lookup, if_pos h]
    · simp only [processAggregation_lookup, if_neg h]

/-! ## Claim C5: full and incremental aggregation agree -/

theorem length_filter_day (logs : List ReadLog) (a : ArticleId) (d : Nat)
    (hd : dateKey d = d) :
    ((logs.filter (fun l => decide (d ≤ l.readAt ∧ l.readAt < d + msPerDay))).filter
        (fun l => decide (l.articleId = a))).length = countFor logs a d := by
  rw [List.filter_filter]
  unfold countFor
  congr 1
  apply List.filter_congr
  intro l _
  have h2 : decide (d ≤ l.readAt ∧ l.readAt < d + msPerDay)
      = decide (dateKey l.readAt = d) :=
    decide_eq_decide.mpr (dateKey_eq_iff d l.readAt hd).symm
  rw [h2, Bool.decide_and]

/-- Claim C5 (confirmed): for every event history, reading any key back from
the full-mode result equals reading it back from the incremental run for that
key's day (clocked at the first instant of the following day, so that
"yesterday" is exactly that day).  In particular the union over all days
present in the history of the per-day incremental results equals the full
result. -/
theorem full_matches_incremental (logs : List ReadLog) :
    runAggregationNow logs emptyStore =
      fun key => processAggregation (dateKey key.2 + msPerDay) logs emptyStore key := by
  funext key
  obtain ⟨a, d⟩ := key
  show runAggregationNow logs emptyStore (a, d)
      = processAggregation (dateKey d + msPerDay) logs emptyStore (a, d)
  simp only [runAggregationNow_lookup, processAggregation_lookup]
  have hmid : dateKey (dateKey d + msPerDay) = dateKey d + msPerDay := dateKey_add_day d
  have hyest : dateKey (dateKey d + msPerDay) - msPerDay = dateKey d := by
    rw [hmid, Nat.add_sub_cancel]
  by_cases hd : dateKey d = d
  · have hcond : ((a, d) ∈ (procEntries (dateKey d + msPerDay) logs).map Prod.fst) ↔
        ((a, d) ∈ (groupedEntries logs).map Prod.fst) := by
      rw [mem_procKeys, mem_groupedKeys]
      unfold dayLogsOf
      rw [hyest, hmid, hd]
      simp only [List.mem_filter, decide_eq_true_eq, true_and]
      constructor
      · rintro ⟨l, ⟨hl, hrange⟩, hart⟩
        exact ⟨l, hl, hart, (dateKey_eq_iff d l.readAt hd).mpr hrange⟩
      · rintro ⟨l, hl, hart, hdate⟩
        exact ⟨l, ⟨hl, (dateKey_eq_iff d l.readAt hd).mp hdate⟩, hart⟩
    have hval : ((dayLogsOf (dateKey d + msPerDay) logs).filter
        (fun l => decide (l.articleId = a))).length = countFor logs a d := by
      unfold dayLogsOf
      rw [hyest, hmid, hd]
      exact length_filter_day logs a d hd
    by_cases hm : (a, d) ∈ (groupedEntries logs).map Prod.fst
    · rw [if_pos hm, if_pos (hcond.mpr hm), hval]
    · rw [if_neg hm, if_neg (fun h => hm (hcond.mp h))]
  · have hmL : ¬ ((a, d) ∈ (groupedEntries logs).map Prod.fst) := by
      intro h
      obtain ⟨l, _, _, hdate⟩ := (mem_groupedKeys logs a d).mp h
      apply hd
      rw [← hdate]
      exact dateKey_idem l.readAt
    have hmR : ¬ ((a, d) ∈ (procEntries (dateKey d + msPerDay) logs).map Prod.fst) := by
      intro h
      obtain ⟨h1, _⟩ := (mem_procKeys _ logs a d).mp h
      rw [hyest] at h1
      exact hd h1.symm
    rw [if_neg hmL, if_neg hmR]

/-! ## Claim C6: UTC bucketing and the zero-event no-op -/

/-- Gregorian leap-year rule, as used by JavaScript `Date.UTC`. -/
def isLeap (y : Nat) : Bool := decide (y % 4 = 0 ∧ (y % 100 ≠ 0 ∨ y % 400 = 0))

def daysInMonth (y m : Nat) : Nat :=
  if m = 2 then (if isLeap y then 29 else 28)
  else if m = 4 ∨ m = 6 ∨ m = 9 ∨ m = 11 then 30 else 31

/-- Days from 1970-01-01 to the start of year `y` (for `y ≥ 1970`). -/
def daysBeforeYear (y : Nat) : Nat :=
  (List.range (y - 1970)).foldl
    (fun acc i => acc + (if isLeap (1970 + i) then 366 else 365)) 0

/-- Days from 1970-01-01 to the Gregorian date y-m-d (UTC). -/
def epochDay (y m d : Nat) : Nat :=
  daysBeforeYear y
    + (List.range (m - 1)).foldl (fun acc i => acc + daysInMonth y (i + 1)) 0
    + (d - 1)

/-- The timestamp of UTC midnight opening the day y-m-d, i.e.
`Date.UTC(y, m-1, d)` in JavaScript. -/
def utcMs (y m d : Nat) : Nat := epochDay y m d * msPerDay

/-- The two reads of the UTC-bucketing scenario: the same article at
2024-01-01T23:59:59Z and at 2024-01-02T00:00:01Z. -/
def demoLogs : List ReadLog :=
  [⟨"a1", utcMs 2024 1 1 + (23 * 3600000 + 59 * 60000 + 59 * 1000)⟩,
   ⟨"a1", utcMs 2024 1 2 + 1000⟩]

/-- Claim C6 (confirmed): day bucketing is by UTC calendar day.  An event at
2024-01-01T23:59:59Z and one at 2024-01-02T00:00:01Z on the same article
produce exactly two DailyAnalytics rows, keyed by the midnights of 2024-01-01
and 2024-01-02, each with viewCount 1; and aggregating an empty event set is
a no-op on any store. -/
theorem utc_bucketing_and_zero_noop :
    runAggregationNow demoLogs emptyStore ("a1", utcMs 2024 1 1) = some 1 ∧
    runAggregationNow demoLogs emptyStore ("a1", utcMs 2024 1 2) = some 1 ∧
    utcMs 2024 1 1 ≠ utcMs 2024 1 2 ∧
    groupedEntries demoLogs
      = [(("a1", utcMs 2024 1 1), 1), (("a1", utcMs 2024 1 2), 1)] ∧
    (∀ s : AggStore, runAggregationNow [] s = s) :=
  ⟨by decide, by decide, by decide, by decide, fun _ => rfl⟩

/-! ## Claim C3: what an individual upsert failure does to the run -/

/-- A failure model in which exactly the upserts for article "a" reject. -/
def failsA : ArticleId × Nat → Bool := fun k => decide (k.1 = "a")

/-- Two articles each read once on the epoch day, so the full aggregation
builds the work list [(("a", 0), 1), (("b", 0), 1)] in that order. -/
def logsC : List ReadLog := [⟨"a", 0⟩, ⟨"b", 0⟩]

/-- Claim C3 (counterexample): when the upsert for the first group ("a")
rejects, the group ("b") that follows it in the iteration is NOT attempted —
its row is absent after the run — while the same run without failures writes
viewCount 1 for it.  The upsert loop sits inside the single run-level
try/catch of `runAggregationNow`, so the first rejection aborts the loop. -/
theorem upsert_failure_counterexample :
    groupedEntries logsC = [(("a", 0), 1), (("b", 0), 1)] ∧
    runAggregationNowF failsA logsC emptyStore ("b", 0) = none ∧
    runAggregationNow logsC emptyStore ("b", 0) = some 1 :=
  ⟨by decide, by decide, by decide⟩

/-- Claim C3 (amended): failure of an individual upsert is caught (and only
logged) at run level, so the caller sees no error, but the run does NOT
continue: groups strictly before the first failing group keep their upserts,
while the failing group and every group after it are left unapplied. -/
theorem upsert_failure_aborts_run (fails : ArticleId × Nat → Bool)
    (pre : List ((ArticleId × Nat) × Nat)) (k : ArticleId × Nat) (v : Nat)
    (post : List ((ArticleId × Nat) × Nat)) (s : AggStore)
    (hpre : ∀ e ∈ pre, fails e.1 = false) (hk : fails k = true) :
    applyUpsertsF fails (pre ++ (k, v) :: post) s = applyUpserts pre s := by
  revert hpre
  induction pre generalizing s with
  | nil =>
    intro _
    simp [applyUpsertsF, applyUpserts, hk]
  | cons e rest ih =>
    intro hpre
    have he : fails e.1 = false := hpre e (List.mem_cons_self e rest)
    have hstep : applyUpsertsF fails ((e :: rest) ++ (k, v) :: post) s
        = applyUpsertsF fails (rest ++ (k, v) :: post) (upsert e.1 e.2 s) := by
      rw [List.cons_append]
      simp [applyUpsertsF, he]
    rw [hstep]
    exact ih (upsert e.1 e.2 s) (fun e2 h2 => hpre e2 (List.mem_cons_of_mem e h2))

def preC : List ((ArticleId × Nat) × Nat) := [(("b", 0), 1)]

/-- Witness for `upsert_failure_aborts_run` at concrete inputs: with the "a"
upsert failing, only the prefix before it is applied. -/
theorem upsert_failure_aborts_run_witness :
    applyUpsertsF failsA (preC ++ (("a", 0), 2) :: [(("c", 0), 3)]) emptyStore
      = applyUpserts preC emptyStore :=
  upsert_failure_aborts_run failsA preC ("a", 0) 2 [(("c", 0), 3)] emptyStore
    (by decide) (by decide)

/-! ## Read tracking (`ArticleController.getById`)

The controller keeps a module-level `readRateLimit : Map<string, number>`
keyed by a concatenated string (the actor key, a dash, and the article id) and
holding the last admitted timestamp.  JS `Map.set` overwrites an existing key
in place and appends a new key; iteration (used by the compaction loop) is in
insertion order; a `Map` never holds two entries with one key. -/

/-- An article row as consumed by the read path: the controller inspects only
`deletedAt` (`ArticleService.getById` returns the row unfiltered). -/
structure Article where
  deletedAt : Option Nat
deriving DecidableEq, Repr

/-- A row written by `ArticleService.createReadLog`
(`articleId`, `readerId: readerId || null`, `readAt` set at insert time). -/
structure ReadLogEntry where
  articleId : String
  readerId : Option String
  readAt : Nat
deriving DecidableEq, Repr

/-- The `readRateLimit` Map as an association list in insertion order. -/
abbrev DedupCache := List (String × Nat)

def READ_RATE_LIMIT_MS : Nat := 10000

/-- `Map.get`. -/
def mapGet : DedupCache → String → Option Nat
  | [], _ => none
  | e :: rest, k => if e.1 = k then some e.2 else mapGet rest k

/-- `Map.set`: overwrite in place when the key exists, else append. -/
def mapSet : DedupCache → String → Nat → DedupCache
  | [], k, v => [(k, v)]
  | e :: rest, k, v => if e.1 = k then (k, v) :: rest else e :: mapSet rest k v

/-- The JS `Map` representation invariant: keys are pairwise distinct. -/
def DedupWf (m : DedupCache) : Prop := (m.map Prod.fst).Nodup

/-- `req.user?.userId || 'guest'`: an absent (or falsy empty) user id becomes
the fixed anonymous sentinel. -/
def actorKeyOf (uid : Option String) : String :=
  match uid with
  | none => "guest"
  | some u => if u = "" then "guest" else u

/-- `readerId || null` inside `createReadLog`. -/
def readerIdOf (uid : Option String) : Option String :=
  match uid with
  | none => none
  | some u => if u = "" then none else some u

/-- The template literal used as the Map key. -/
def rateLimitKeyOf (uid : Option String) (aid : String) : String :=
  actorKeyOf uid ++ "-" ++ aid

/-- The admit decision: `!lastRead || now - lastRead > READ_RATE_LIMIT_MS`. -/
def admitCond (cache : DedupCache) (key : String) (nowT : Nat) : Bool :=
  match mapGet cache key with
  | none => true
  | some lastRead => decide (nowT - lastRead > READ_RATE_LIMIT_MS)

/-- The admit block of the controller: on admission, persist a ReadLog row
(fire-and-forget, modelled as appended to the event list) and overwrite the
cache entry with `now`; on a drop, touch nothing. -/
def admitStep (uid : Option String) (aid : String) (nowT : Nat)
    (cache : DedupCache) (events : List ReadLogEntry) :
    DedupCache × List ReadLogEntry :=
  if admitCond cache (rateLimitKeyOf uid aid) nowT
  then (mapSet cache (rateLimitKeyOf uid aid) nowT,
        events ++ [⟨aid, readerIdOf uid, nowT⟩])
  else (cache, events)

/-- The compaction block: once the cache holds more than 10,000 entries, evict
every entry strictly older than the dedup window. -/
def compactStep (nowT : Nat) (cache : DedupCache) : DedupCache :=
  if cache.length > 10000
  then cache.filter (fun e => !decide (e.2 < nowT - READ_RATE_LIMIT_MS))
  else cache

structure GetByIdResult where
  status : Nat
  cache : DedupCache
  events : List ReadLogEntry
deriving DecidableEq, Repr

/-- `ArticleController.getById`: 404 when the article does not exist, 410 when
it is soft-deleted — both answered before the read-tracking block, leaving the
dedup cache and the event store untouched; otherwise the admit gate runs, then
the opportunistic compaction, and the call answers 200. -/
def getById (db : String → Option Article) (uid : Option String) (aid : String)
    (nowT : Nat) (cache : DedupCache) (events : List ReadLogEntry) :
    GetByIdResult :=
  match db aid with
  | none => ⟨404, cache, events⟩
  | some article =>
    if article.deletedAt.isSome then ⟨410, cache, events⟩
    else
      let r := admitStep uid aid nowT cache events
      ⟨200, compactStep nowT r.1, r.2⟩

/-! ## Map lemmas -/

theorem DedupWf_nil : DedupWf [] := List.nodup_nil

theorem mapGet_set_self (m : DedupCache) (k : String) (v : Nat) :
    mapGet (mapSet m k v) k = some v := by
  induction m with
  | nil => simp [mapSet, mapGet]
  | cons e rest ih =>
    by_cases h : e.1 = k
    · simp [mapSet, h, mapGet]
    · simp [mapSet, h, mapGet, ih]

theorem mapGet_eq_none_of_not_mem (m : DedupCache) (k : String)
    (h : k ∉ m.map Prod.fst) : mapGet m k = none := by
  induction m with
  | nil => rfl
  | cons e rest ih =>
    simp only [List.map_cons, List.mem_cons] at h
    push_neg at h
    rw [mapGet, if_neg (Ne.symm h.1)]
    exact ih h.2

theorem mem_keys_mapSet (m : DedupCache) (k : String) (v : Nat) (x : String) :
    x ∈ (mapSet m k v).map Prod.fst ↔ x ∈ m.map Prod.fst ∨ x = k := by
  induction m with
  | nil => simp [mapSet]
  | cons e rest ih =>
    by_cases h : e.1 = k
    · have hs : mapSet (e :: rest) k v = (k, v) :: rest := by
        simp only [mapSet, if_pos h]
      rw [hs]
      simp only [List.map_cons, List.mem_cons, h]
      tauto
    · have hs : mapSet (e :: rest) k v = e :: mapSet rest k v := by
        simp only [mapSet, if_neg h]
      rw [hs]
      simp only [List.map_cons, List.mem_cons, ih]
      tauto

theorem DedupWf_set (m : DedupCache) (k : String) (v : Nat) (h : DedupWf m) :
    DedupWf (mapSet m k v) := by
  induction m with
  | nil => simp [DedupWf, mapSet]
  | cons e rest ih =>
    obtain ⟨hnotin, hnd⟩ := List.nodup_cons.mp h
    by_cases he : e.1 = k
    · unfold DedupWf
      simp only [mapSet, if_pos he, List.map_cons]
      rw [List.nodup_cons]
      rw [he] at hnotin
      exact ⟨hnotin, hnd⟩
    · unfold DedupWf
      simp only [mapSet, if_neg he, List.map_cons]
      rw [List.nodup_cons]
      refine ⟨?_, ih hnd⟩
      rw [mem_keys_mapSet]
      rintro (hx | hx)
      · exact hnotin hx
      · exact he hx

theorem keys_filter_subset (m : DedupCache) (p : String × Nat → Bool) (x : String)
    (hx : x ∈ (m.filter p).map Prod.fst) : x ∈ m.map Prod.fst := by
  rw [List.mem_map] at hx ⊢
  obtain ⟨e, he, rfl⟩ := hx
  exact ⟨e, List.mem_of_mem_filter he, rfl⟩

theorem DedupWf_filter (m : DedupCache) (p : String × Nat → Bool) (h : DedupWf m) :
    DedupWf (m.filter p) := by
  unfold DedupWf at *
  exact List.Nodup.sublist ((List.filter_sublist m).map Prod.fst) h

theorem mapGet_filter_of_none (p : String × Nat → Bool) (m : DedupCache) (k : String)
    (hget : mapGet m k = none) : mapGet (m.filter p) k = none := by
  induction m with
  | nil => rfl
  | cons e rest ih =>
    rw [mapGet] at hget
    by_cases he : e.1 = k
    · rw [if_pos he] at hget
      exact absurd hget (by simp)
    · rw [if_neg he] at hget
      by_cases hp : p e
      · rw [List.filter_cons_of_pos hp, mapGet, if_neg he]
        exact ih hget
      · rw [List.filter_cons_of_neg (by simp [hp])]
        exact ih hget

theorem mapGet_filter_of_get (p : String × Nat → Bool) :
    ∀ (m : DedupCache) (k : String) (v : Nat), DedupWf m → mapGet m k = some v →
      mapGet (m.filter p) k = if p (k, v) then some v else none := by
  intro m
  induction m with
  | nil =>
    intro k v _ hget
    exact absurd hget (by simp [mapGet])
  | cons e rest ih =>
    intro k v hwf hget
    obtain ⟨e1, e2⟩ := e
    obtain ⟨hnotin, hnd⟩ := List.nodup_cons.mp hwf
    by_cases he : e1 = k
    · subst he
      rw [mapGet, if_pos rfl] at hget
      obtain rfl : e2 = v := (Option.some.injEq _ _ ▸ hget)
      by_cases hp : p (e1, e2)
      · rw [List.filter_cons_of_pos hp, mapGet, if_pos rfl, if_pos hp]
      · rw [List.filter_cons_of_neg (by simp [hp]), if_neg hp]
        apply mapGet_eq_none_of_not_mem
        intro hmem
        exact hnotin (keys_filter_subset rest p e1 hmem)
    · rw [mapGet, if_neg he] at hget
      by_cases hp : p (e1, e2)
      · rw [List.filter_cons_of_pos hp, mapGet, if_neg he]
        exact ih k v hnd hget
      · rw [List.filter_cons_of_neg (by simp [hp])]
        exact ih k v hnd hget

/-! ## Controller-level lemmas -/

theorem getById_ok (db : String → Option Article) (uid : Option String)
    (aid : String) (art : Article) (hdb : db aid = some art)
    (hdel : art.deletedAt = none) (nowT : Nat) (cache : DedupCache)
    (events : List ReadLogEntry) :
    getById db uid aid nowT cache events
      = ⟨200, compactStep nowT (admitStep uid aid nowT cache events).1,
          (admitStep uid aid nowT cache events).2⟩ := by
  simp [getById, hdb, hdel]

theorem admitStep_wf (uid : Option String) (aid : String) (nowT : Nat)
    (cache : DedupCache) (events : List ReadLogEntry) (hwf : DedupWf cache) :
    DedupWf (admitStep uid aid nowT cache events).1 := by
  unfold admitStep
  by_cases h : admitCond cache (rateLimitKeyOf uid aid) nowT
  · rw [if_pos h]
    exact DedupWf_set cache _ nowT hwf
  · rw [if_neg h]
    exact hwf

theorem compactStep_wf (nowT : Nat) (cache : DedupCache) (hwf : DedupWf cache) :
    DedupWf (compactStep nowT cache) := by
  unfold compactStep
  by_cases h : cache.length > 10000
  · rw [if_pos h]
    exact DedupWf_filter cache _ hwf
  · rw [if_neg h]
    exact hwf

theorem getById_wf (db : String → Option Article) (uid : Option String)
    (aid : String) (nowT : Nat) (cache : DedupCache) (events : List ReadLogEntry)
    (hwf : DedupWf cache) :
    DedupWf (getById db uid aid nowT cache events).cache := by
  cases hdb : db aid with
  | none =>
    simp only [getById, hdb]
    exact hwf
  | some art =>
    cases hdel : art.deletedAt with
    | some ts =>
      simp only [getById, hdb, hdel, Option.isSome_some, if_true]
      exact hwf
    | none =>
      rw [getById_ok db uid aid art hdb hdel]
      exact compactStep_wf nowT _ (admitStep_wf uid aid nowT cache events hwf)

/-- On an admitting 200-call: one event is appended and the cache entry holds
`now` afterwards (the freshly written entry always survives compaction). -/
theorem getById_admit_true (db : String → Option Article) (uid : Option String)
    (aid : String) (art : Article) (hdb : db aid = some art)
    (hdel : art.deletedAt = none) (nowT : Nat) (cache : DedupCache)
    (events : List ReadLogEntry) (hwf : DedupWf cache)
    (h : admitCond cache (rateLimitKeyOf uid aid) nowT = true) :
    (getById db uid aid nowT cache events).events
        = events ++ [⟨aid, readerIdOf uid, nowT⟩] ∧
    mapGet (getById db uid aid nowT cache events).cache (rateLimitKeyOf uid aid)
        = some nowT := by
  rw [getById_ok db uid aid art hdb hdel]
  have hset : admitStep uid aid nowT cache events
      = (mapSet cache (rateLimitKeyOf uid aid) nowT,
         events ++ [⟨aid, readerIdOf uid, nowT⟩]) := by
    unfold admitStep
    rw [if_pos h]
  rw [hset]
  refine ⟨rfl, ?_⟩
  show mapGet (compactStep nowT (mapSet cache (rateLimitKeyOf uid aid) nowT)) _
      = some nowT
  have hget : mapGet (mapSet cache (rateLimitKeyOf uid aid) nowT)
      (rateLimitKeyOf uid aid) = some nowT := mapGet_set_self cache _ nowT
  unfold compactStep
  by_cases hsz : (mapSet cache (rateLimitKeyOf uid aid) nowT).length > 10000
  · rw [if_pos hsz,
      mapGet_filter_of_get _ _ _ _ (DedupWf_set cache _ nowT hwf) hget,
      if_pos]
    simp only [Bool.not_eq_true']
    exact decide_eq_false (Nat.not_lt.mpr (Nat.sub_le nowT READ_RATE_LIMIT_MS))
  · rw [if_neg hsz]
    exact hget

/-- On a dropped 200-call: no event is appended and the cache entry for the
key is unchanged (a dropped entry is inside the window, so compaction keeps
it). -/
theorem getById_admit_false (db : String → Option Article) (uid : Option String)
    (aid : String) (art : Article) (hdb : db aid = some art)
    (hdel : art.deletedAt = none) (nowT : Nat) (cache : DedupCache)
    (events : List ReadLogEntry) (hwf : DedupWf cache)
    (h : admitCond cache (rateLimitKeyOf uid aid) nowT = false) :
    (getById db uid aid nowT cache events).events = events ∧
    mapGet (getById db uid aid nowT cache events).cache (rateLimitKeyOf uid aid)
        = mapGet cache (rateLimitKeyOf uid aid) := by
  rw [getById_ok db uid aid art hdb hdel]
  have hid : admitStep uid aid nowT cache events = (cache, events) := by
    unfold admitStep
    rw [if_neg (by simp [h])]
  rw [hid]
  refine ⟨rfl, ?_⟩
  show mapGet (compactStep nowT cache) (rateLimitKeyOf uid aid)
      = mapGet cache (rateLimitKeyOf uid aid)
  unfold compactStep
  by_cases hsz : cache.length > 10000
  · rw [if_pos hsz]
    cases hc : mapGet cache (rateLimitKeyOf uid aid) with
    | none => exact mapGet_filter_of_none _ cache _ hc
    | some t =>
      have hbound : ¬ (nowT - t > READ_RATE_LIMIT_MS) := by
        unfold admitCond at h
        rw [hc] at h
        simpa using h
      have hkeep : ¬ (t < nowT - READ_RATE_LIMIT_MS) := by
        unfold READ_RATE_LIMIT_MS at *
        omega
      rw [mapGet_filter_of_get _ _ _ _ hwf hc, if_pos]
      simp only [Bool.not_eq_true']
      exact decide_eq_false hkeep
  · rw [if_neg hsz]

/-- Two consecutive reads by the same actor on the same live article with no
prior cache entry: the first is admitted; the second is admitted exactly when
it falls more than the dedup window after the first. -/
theorem two_reads_events (db : String → Option Article) (uid : Option String)
    (aid : String) (art : Article) (hdb : db aid = some art)
    (hdel : art.deletedAt = none) (cache : DedupCache)
    (events : List ReadLogEntry) (hwf : DedupWf cache) (t1 t2 : Nat)
    (hprior : mapGet cache (rateLimitKeyOf uid aid) = none) :
    (t2 - t1 ≤ READ_RATE_LIMIT_MS →
      (getById db uid aid t2 (getById db uid aid t1 cache events).cache
          (getById db uid aid t1 cache events).events).events
        = events ++ [⟨aid, readerIdOf uid, t1⟩]) ∧
    (t2 - t1 > READ_RATE_LIMIT_MS →
      (getById db uid aid t2 (getById db uid aid t1 cache events).cache
          (getById db uid aid t1 cache events).events).events
        = events ++ [⟨aid, readerIdOf uid, t1⟩, ⟨aid, readerIdOf uid, t2⟩]) := by
  have h1 : admitCond cache (rateLimitKeyOf uid aid) t1 = true := by
    unfold admitCond
    rw [hprior]
  obtain ⟨hev1, hc1⟩ :=
    getById_admit_true db uid aid art hdb hdel t1 cache events hwf h1
  have hwf1 : DedupWf (getById db uid aid t1 cache events).cache :=
    getById_wf db uid aid t1 cache events hwf
  have h2 : admitCond (getById db uid aid t1 cache events).cache
      (rateLimitKeyOf uid aid) t2 = decide (t2 - t1 > READ_RATE_LIMIT_MS) := by
    unfold admitCond
    rw [hc1]
  constructor
  · intro hle
    have h2f : admitCond (getById db uid aid t1 cache events).cache
        (rateLimitKeyOf uid aid) t2 = false := by
      rw [h2]
      exact decide_eq_false (Nat.not_lt.mpr hle)
    obtain ⟨hev2, -⟩ :=
      getById_admit_false db uid aid art hdb hdel t2 _ _ hwf1 h2f
    rw [hev2, hev1]
  · intro hgt
    have h2t : admitCond (getById db uid aid t1 cache events).cache
        (rateLimitKeyOf uid aid) t2 = true := by
      rw [h2]
      exact decide_eq_true hgt
    obtain ⟨hev2, -⟩ :=
      getById_admit_true db uid aid art hdb hdel t2 _ _ hwf1 h2t
    rw [hev2, hev1]
    simp

/-! ## Claim C4: the dedup gate -/

/-- Claim C4 (confirmed): on a live article, the gate admits (appending
exactly one ReadLog row) iff there is no prior entry under the actor/article
key or the prior entry is more than 10000 ms before `now`; on admission the
entry is overwritten with `now`; on a drop neither the events nor the entry
change.  Consequently two reads within 10 s (difference ≤ 10000 ms) persist
one event and two reads 10.001 s apart (difference 10001 ms > 10000) persist
two. -/
theorem dedup_gate (db : String → Option Article) (uid : Option String)
    (aid : String) (art : Article) (hdb : db aid = some art)
    (hdel : art.deletedAt = none) :
    (∀ (nowT : Nat) (cache : DedupCache) (events : List ReadLogEntry),
      DedupWf cache →
      (admitCond cache (rateLimitKeyOf uid aid) nowT = true ↔
        mapGet cache (rateLimitKeyOf uid aid) = none ∨
        ∃ t, mapGet cache (rateLimitKeyOf uid aid) = some t ∧
          nowT - t > READ_RATE_LIMIT_MS) ∧
      (admitCond cache (rateLimitKeyOf uid aid) nowT = true →
        (getById db uid aid nowT cache events).events
          = events ++ [⟨aid, readerIdOf uid, nowT⟩] ∧
        mapGet (getById db uid aid nowT cache events).cache
          (rateLimitKeyOf uid aid) = some nowT) ∧
      (admitCond cache (rateLimitKeyOf uid aid) nowT = false →
        (getById db uid aid nowT cache events).events = events ∧
        mapGet (getById db uid aid nowT cache events).cache
          (rateLimitKeyOf uid aid) = mapGet cache (rateLimitKeyOf uid aid))) ∧
    (∀ (cache : DedupCache) (events : List ReadLogEntry) (t1 t2 : Nat),
      DedupWf cache → mapGet cache (rateLimitKeyOf uid aid) = none →
      (t2 - t1 ≤ READ_RATE_LIMIT_MS →
        (getById db uid aid t2 (getById db uid aid t1 cache events).cache
            (getById db uid aid t1 cache events).events).events
          = events ++ [⟨aid, readerIdOf uid, t1⟩]) ∧
      (t2 - t1 > READ_RATE_LIMIT_MS →
        (getById db uid aid t2 (getById db uid aid t1 cache events).cache
            (getById db uid aid t1 cache events).events).events
          = events ++ [⟨aid, readerIdOf uid, t1⟩, ⟨aid, readerIdOf uid, t2⟩])) := by
  constructor
  · intro nowT cache events hwf
    refine ⟨?_,
      fun h => getById_admit_true db uid aid art hdb hdel nowT cache events hwf h,
      fun h => getById_admit_false db uid aid art hdb hdel nowT cache events hwf h⟩
    unfold admitCond
    cases hc : mapGet cache (rateLimitKeyOf uid aid) with
    | none => simp
    | some t => simp
  · intro cache events t1 t2 hwf hprior
    exact two_reads_events db uid aid art hdb hdel cache events hwf t1 t2 hprior

def artLive : Article := ⟨none⟩

def dbLive : String → Option Article := fun _ => some artLive

/-- Witness for `dedup_gate`: a first read at t=100 is admitted; a second read
at t=10101 (10001 ms later) is admitted as well, persisting two events. -/
theorem dedup_gate_witness :
    ((getById dbLive (some "u") "A" 100 [] []).events
        = [] ++ [⟨"A", readerIdOf (some "u"), 100⟩]) ∧
    ((getById dbLive (some "u") "A" 10101
        (getById dbLive (some "u") "A" 100 [] []).cache
        (getById dbLive (some "u") "A" 100 [] []).events).events
      = [] ++ [⟨"A", readerIdOf (some "u"), 100⟩,
               ⟨"A", readerIdOf (some "u"), 10101⟩]) := by
  have h := dedup_gate dbLive (some "u") "A" artLive rfl rfl
  exact ⟨((h.1 100 [] [] DedupWf_nil).2.1 (by decide)).1,
    (h.2 [] [] 100 10101 DedupWf_nil rfl).2 (by decide)⟩

/-! ## Claim C9: anonymous coalescing -/

/-- Claim C9 (confirmed): all anonymous reads share the fixed sentinel actor
key, so two anonymous reads of one article within the dedup window — by any
underlying callers, since anonymous requests carry no identity — collapse to
one admission: exactly one ReadLog row is persisted. -/
theorem anonymous_coalescing (db : String → Option Article) (aid : String)
    (art : Article) (hdb : db aid = some art) (hdel : art.deletedAt = none)
    (cache : DedupCache) (events : List ReadLogEntry) (hwf : DedupWf cache)
    (t1 t2 : Nat) (hprior : mapGet cache (rateLimitKeyOf none aid) = none)
    (hwin : t2 - t1 ≤ READ_RATE_LIMIT_MS) :
    actorKeyOf none = "guest" ∧
    (getById db none aid t2 (getById db none aid t1 cache events).cache
        (getById db none aid t1 cache events).events).events
      = events ++ [⟨aid, none, t1⟩] :=
  ⟨rfl,
   (two_reads_events db none aid art hdb hdel cache events hwf t1 t2 hprior).1 hwin⟩

/-- Witness for `anonymous_coalescing`: two anonymous reads 10 s apart
(difference exactly 10000 ms, inside the window) persist one event. -/
theorem anonymous_coalescing_witness :
    actorKeyOf none = "guest" ∧
    (getById dbLive none "A" 10050 (getById dbLive none "A" 50 [] []).cache
        (getById dbLive none "A" 50 [] []).events).events
      = [] ++ [⟨"A", none, 50⟩] :=
  anonymous_coalescing dbLive "A" artLive rfl rfl [] [] DedupWf_nil 50 10050
    rfl (by decide)

/-! ## Claim C7: bounded dedup cache -/

/-- Claim C7 (confirmed): when the cache exceeds 10,000 entries after the
admit step, the same call runs the synchronous compaction: the resulting
cache is exactly the filter keeping entries inside the window, so every entry
whose timestamp is older than `now` minus the window is absent afterwards and
every other entry survives with its value. -/
theorem bounded_cache_compaction (db : String → Option Article)
    (uid : Option String) (aid : String) (art : Article)
    (hdb : db aid = some art) (hdel : art.deletedAt = none) (nowT : Nat)
    (cache : DedupCache) (events : List ReadLogEntry) (hwf : DedupWf cache)
    (hsz : (admitStep uid aid nowT cache events).1.length > 10000) :
    (getById db uid aid nowT cache events).cache
      = (admitStep uid aid nowT cache events).1.filter
          (fun e => !decide (e.2 < nowT - READ_RATE_LIMIT_MS)) ∧
    (∀ k v, mapGet (admitStep uid aid nowT cache events).1 k = some v →
      (v < nowT - READ_RATE_LIMIT_MS →
        mapGet (getById db uid aid nowT cache events).cache k = none) ∧
      (¬ v < nowT - READ_RATE_LIMIT_MS →
        mapGet (getById db uid aid nowT cache events).cache k = some v)) := by
  have hwf1 : DedupWf (admitStep uid aid nowT cache events).1 :=
    admitStep_wf uid aid nowT cache events hwf
  have hcache : (getById db uid aid nowT cache events).cache
      = (admitStep uid aid nowT cache events).1.filter
          (fun e => !decide (e.2 < nowT - READ_RATE_LIMIT_MS)) := by
    rw [getById_ok db uid aid art hdb hdel]
    show compactStep nowT (admitStep uid aid nowT cache events).1 = _
    unfold compactStep
    rw [if_pos hsz]
  refine ⟨hcache, fun k v hget => ⟨fun hold => ?_, fun hnew => ?_⟩⟩
  · rw [hcache, mapGet_filter_of_get _ _ _ _ hwf1 hget,
      if_neg (by simp [hold])]
  · rw [hcache, mapGet_filter_of_get _ _ _ _ hwf1 hget,
      if_pos (by simp [hnew])]

/-- 10,001 pairwise distinct cache keys ("", "x", "xx", ...) for the
compaction witness. -/
def natKey (i : Nat) : String := String.mk (List.replicate i 'x')

def bigCache : DedupCache := (List.range 10001).map (fun i => (natKey i, 0))

theorem natKey_injective : Function.Injective natKey := by
  intro i j h
  have h2 : List.replicate i 'x' = List.replicate j 'x' := by
    injection h
  have h3 := congrArg List.length h2
  simpa using h3

theorem bigCache_wf : DedupWf bigCache := by
  unfold DedupWf bigCache
  rw [List.map_map]
  exact (List.nodup_range 10001).map natKey_injective

theorem guestA_not_natKey (i : Nat) : natKey i ≠ rateLimitKeyOf none "A" := by
  intro h
  have hdata : List.replicate i 'x' = (rateLimitKeyOf none "A").data :=
    congrArg String.data h
  have hh := congrArg List.head? hdata
  cases i with
  | zero => exact absurd hh (by decide)
  | succ n =>
    have hh2 : some 'x' = List.head? (rateLimitKeyOf none "A").data := by
      rw [← hh, List.replicate_succ]
      rfl
    exact absurd hh2 (by decide)

theorem bigCache_get : mapGet bigCache (rateLimitKeyOf none "A") = none := by
  apply mapGet_eq_none_of_not_mem
  intro hmem
  unfold bigCache at hmem
  rw [List.map_map, List.mem_map] at hmem
  obtain ⟨i, -, hi⟩ := hmem
  exact guestA_not_natKey i hi

theorem length_mapSet_of_not_mem (m : DedupCache) (k : String) (v : Nat)
    (h : mapGet m k = none) : (mapSet m k v).length = m.length + 1 := by
  induction m with
  | nil => rfl
  | cons e rest ih =>
    rw [mapGet] at h
    by_cases he : e.1 = k
    · rw [if_pos he] at h
      exact absurd h (by simp)
    · rw [if_neg he] at h
      have hs : mapSet (e :: rest) k v = e :: mapSet rest k v := by
        simp only [mapSet, if_neg he]
      rw [hs, List.length_cons, List.length_cons, ih h]

theorem bigCache_len : bigCache.length = 10001 := by
  unfold bigCache
  rw [List.length_map, List.length_range]

theorem bigCache_size : (admitStep none "A" 20000 bigCache []).1.length > 10000 := by
  have hcond : admitCond bigCache (rateLimitKeyOf none "A") 20000 = true := by
    unfold admitCond
    rw [bigCache_get]
  have hs : (admitStep none "A" 20000 bigCache []).1
      = mapSet bigCache (rateLimitKeyOf none "A") 20000 := by
    unfold admitStep
    rw [if_pos hcond]
  rw [hs, length_mapSet_of_not_mem _ _ _ bigCache_get, bigCache_len]
  omega

/-- Witness for `bounded_cache_compaction`: a 10,001-entry cache (all entries
stale at t=20000) plus the admitting call itself. -/
theorem bounded_cache_compaction_witness :
    (getById dbLive none "A" 20000 bigCache []).cache
      = (admitStep none "A" 20000 bigCache []).1.filter
          (fun e => !decide (e.2 < 20000 - READ_RATE_LIMIT_MS)) ∧
    (∀ k v, mapGet (admitStep none "A" 20000 bigCache []).1 k = some v →
      (v < 20000 - READ_RATE_LIMIT_MS →
        mapGet (getById dbLive none "A" 20000 bigCache []).cache k = none) ∧
      (¬ v < 20000 - READ_RATE_LIMIT_MS →
        mapGet (getById dbLive none "A" 20000 bigCache []).cache k = some v)) :=
  bounded_cache_compaction dbLive none "A" artLive rfl rfl 20000 bigCache []
    bigCache_wf bigCache_size

/-! ## Claim C10: no read tracking without a live article -/

/-- Claim C10 (confirmed): a request for a missing article answers 404 and a
request for a soft-deleted article answers 410; both paths return before the
read-tracking block, leaving the dedup cache and the event store exactly as
they were. -/
theorem read_tracking_requires_live_article (db : String → Option Article)
    (uid : Option String) (aid : String) (nowT : Nat) (cache : DedupCache)
    (events : List ReadLogEntry) :
    (db aid = none → getById db uid aid nowT cache events = ⟨404, cache, events⟩) ∧
    (∀ art, db aid = some art → (∃ ts, art.deletedAt = some ts) →
      getById db uid aid nowT cache events = ⟨410, cache, events⟩) := by
  constructor
  · intro h
    simp [getById, h]
  · rintro art h ⟨ts, hts⟩
    simp [getById, h, hts]

def artGone : Article := ⟨some 5⟩

def dbNoneC : String → Option Article := fun _ => none

def dbGoneC : String → Option Article := fun _ => some artGone

/-- Witness for `read_tracking_requires_live_article`. -/
theorem read_tracking_requires_live_article_witness :
    getById dbNoneC none "A" 0 [] [] = ⟨404, [], []⟩ ∧
    getById dbGoneC (some "u") "A" 0 [] [] = ⟨410, [], []⟩ :=
  ⟨(read_tracking_requires_live_article dbNoneC none "A" 0 [] []).1 rfl,
   (read_tracking_requires_live_article dbGoneC (some "u") "A" 0 [] []).2
     artGone rfl ⟨5, rfl⟩⟩

/-! ## Scheduler (`startServer` and `checkRedis`)

`startServer` probes the Redis broker exactly once with a 2-second socket
timeout.  On success it wires the BullMQ queue and worker (daily incremental
aggregation); on failure it runs the full fallback aggregation immediately and
re-runs it on a 5-minute `setInterval`.  No statement in the source re-probes
the broker or revisits the chosen branch during the rest of the process
lifetime. -/

inductive SchedulerMode
  | queueBacked
  | inProcessFallback
deriving DecidableEq, Repr

def PROBE_TIMEOUT_MS : Nat := 2000

/-- The observable outcome of the single TCP connection attempt:
`connectDelay = some d` means the socket's `connect` event would fire `d` ms
after the attempt; `none` means the `error` event fires instead. -/
structure BrokerEnv where
  connectDelay : Option Nat

/-- `checkRedis`: resolves true iff the socket connects before the 2-second
timer fires; an error or the timeout resolves false. -/
def checkRedis (env : BrokerEnv) : Bool :=
  match env.connectDelay with
  | some d => decide (d < PROBE_TIMEOUT_MS)
  | none => false

structure ProcState where
  mode : SchedulerMode
  store : AggStore

/-- Events observable after startup: fallback timer ticks, queue job firings,
and changes of broker reachability. -/
inductive ProcEvent
  | timerTick (logs : List ReadLog)
  | jobFire (nowT : Nat) (logs : List ReadLog)
  | brokerUp
  | brokerDown

/-- One event of process life.  Ticks drive the full fallback aggregation
(the `setInterval` is only registered in fallback mode), job firings drive the
incremental aggregation (the worker only exists in queue-backed mode); nothing
in the source reacts to broker reachability changes after startup — there is
no re-probe and no reassignment of the chosen branch. -/
def procStep (s : ProcState) : ProcEvent → ProcState
  | .timerTick logs =>
    if s.mode = .inProcessFallback
    then { s with store := runAggregationNow logs s.store } else s
  | .jobFire nowT logs =>
    if s.mode = .queueBacked
    then { s with store := processAggregation nowT logs s.store } else s
  | .brokerUp => s
  | .brokerDown => s

/-- `startServer`: probe once; queue-backed on success, otherwise fallback
mode with one immediate full aggregation run. -/
def startServer (env : BrokerEnv) (logs : List ReadLog) : ProcState :=
  if checkRedis env
  then { mode := .queueBacked, store := emptyStore }
  else { mode := .inProcessFallback, store := runAggregationNow logs emptyStore }

def runProcess (env : BrokerEnv) (logs : List ReadLog)
    (evs : List ProcEvent) : ProcState :=
  evs.foldl procStep (startServer env logs)

theorem procStep_mode (s : ProcState) (e : ProcEvent) :
    (procStep s e).mode = s.mode := by
  cases e with
  | timerTick logs =>
    show (if s.mode = .inProcessFallback then _ else s).mode = s.mode
    split <;> rfl
  | jobFire nowT logs =>
    show (if s.mode = .queueBacked then _ else s).mode = s.mode
    split <;> rfl
  | brokerUp => rfl
  | brokerDown => rfl

theorem foldl_procStep_mode (evs : List ProcEvent) :
    ∀ s : ProcState, (evs.foldl procStep s).mode = s.mode := by
  induction evs with
  | nil => intro s; rfl
  | cons e rest ih =>
    intro s
    rw [List.foldl_cons, ih (procStep s e), procStep_mode]

/-- Claim C8 (confirmed): the scheduler mode is fixed by the single
2-second-bounded startup probe — probe success selects queue-backed mode,
probe failure or timeout selects the in-process fallback — and it is unchanged
at every later point of the process lifetime: no event after startup (timer
ticks, job firings, broker going up or down) touches it. -/
theorem scheduler_mode_permanent (env : BrokerEnv) (logs : List ReadLog)
    (evs : List ProcEvent) :
    (runProcess env logs evs).mode = (startServer env logs).mode ∧
    ((startServer env logs).mode
      = if checkRedis env then SchedulerMode.queueBacked
        else SchedulerMode.inProcessFallback) ∧
    (checkRedis env = true ↔
      ∃ d, env.connectDelay = some d ∧ d < PROBE_TIMEOUT_MS) := by
  refine ⟨foldl_procStep_mode evs (startServer env logs), ?_, ?_⟩
  · unfold startServer
    split <;> rfl
  · unfold checkRedis
    cases hc : env.connectDelay with
    | none => simp
    | some d => simp

/-! ## Claim C1: triggers during a running aggregation -/

/-- Trigger history of the in-process fallback scheduler: `tick` is a firing
of the 5-minute `setInterval`, whose callback invokes `runAggregationNow`
unconditionally — the source keeps no in-flight flag — and `finish` is a
running aggregation completing. -/
inductive FallbackTrigger
  | tick
  | finish
deriving DecidableEq, Repr

/-- Each tick starts one more concurrent run; each completion retires one. -/
def inFlightStep (n : Nat) : FallbackTrigger → Nat
  | .tick => n + 1
  | .finish => n - 1

/-- The number of aggregation runs in flight after a trigger history. -/
def inFlightAfter (evs : List FallbackTrigger) : Nat :=
  evs.foldl inFlightStep 0

/-- Claim C1 (counterexample): a second timer tick firing before the first
run finishes leaves two runs in flight, refuting "at most one aggregation run
is in flight per process at any time; a trigger during a run is
skipped/coalesced". -/
theorem no_inflight_guard_counterexample :
    inFlightAfter [FallbackTrigger.tick, FallbackTrigger.tick] = 2 ∧
    ¬ inFlightAfter [FallbackTrigger.tick, FallbackTrigger.tick] ≤ 1 :=
  ⟨rfl, by decide⟩

/-- Claim C1 (amended): the fallback scheduler has no overlap protection —
every timer tick unconditionally starts one more aggregation run, whatever is
already in flight; no tick is ever skipped or coalesced. -/
theorem every_tick_starts_a_run (evs : List FallbackTrigger) :
    inFlightAfter (evs ++ [FallbackTrigger.tick]) = inFlightAfter evs + 1 := by
  unfold inFlightAfter
  rw [List.foldl_append]
  rfl
